import Mathlib

/-!
Shallow embedding of the PL011 UART driver (`src/pl011.rs`) and proofs of
the specification claims about it.

Modelling conventions:
* `u32` values are `Nat` with an explicit `% 2 ^ 32` at each operation where
  Rust wrapping could matter; `as u8` is `% 2 ^ 8`.
* Rust division by zero panics, so computations whose divisor can be zero
  return `Option` (`none` models the panic).
* Register accesses are recorded as explicit event traces so that ordering
  claims can be stated.
* The flag register is a `Nat`; bit tests mirror the source
  (`uartfr.get() & (1 << 5) != 0`, `is_set(FLAG::RXFE)` = bit 4).
-/

namespace Pl011

/-- The result of polling a future, mirroring `core::task::Poll`. -/
inductive Poll (α : Type) where
  | Ready (v : α)
  | Pending
deriving DecidableEq, Repr

/-- Register-access events of one call of `WriteFuture::poll`:
a read of the flag register (recording the observed TXFF bit),
a write of a byte to the data register `uartdr`, or a registration of the
current waker (`this.uart.waker.register(_cx.waker())`). -/
inductive TxEv where
  | readFR (full : Bool)
  | writeDR (b : Nat)
  | regWaker
deriving DecidableEq, Repr

/-- The values written to the data register, in order, extracted from a trace. -/
def drWrites (evs : List TxEv) : List Nat :=
  evs.filterMap fun e =>
    match e with
    | .writeDR b => some b
    | _ => none

/-- The loop body of `WriteFuture::poll` (src/pl011.rs:167-180), recursing on
the not-yet-sent suffix of the buffer.  `txff i` is the TXFF flag observed by
the flag-register read made while the cursor is at `i`.
* suffix empty (`this.index >= this.data.len()`): return `Poll::Ready(this.index)`;
* TXFF set (`uartfr.get() & (1 << 5) != 0`): register the waker, return `Poll::Pending`;
* otherwise write `this.data[this.index]` to `uartdr`, advance the cursor, loop.
Returns (poll result, final cursor, event trace). -/
def pollGo (txff : Nat → Bool) : Nat → List Nat → Poll Nat × Nat × List TxEv
  | i, [] => (.Ready i, i, [])
  | i, b :: rest =>
    if txff i then
      (.Pending, i, [.readFR true, .regWaker])
    else
      let r := pollGo txff (i + 1) rest
      (r.1, r.2.1, .readFR false :: .writeDR b :: r.2.2)

/-- One call of `WriteFuture::poll` on state `{ data, index := i }`:
the remaining suffix of the buffer is `data.drop i`
(`data.drop i = []` exactly when `this.index >= this.data.len()`). -/
def pollOnce (data : List Nat) (txff : Nat → Bool) (i : Nat) :
    Poll Nat × Nat × List TxEv :=
  pollGo txff i (data.drop i)

/-- A sequence of polls of one `WriteFuture`, one TXFF observation function per
poll, starting at cursor `i`.  Returns (result of the last poll, final cursor,
concatenated event trace); the result is `none` when no poll was made.
`Uart::write` constructs the future with `index = 0`, so runs start at `i = 0`. -/
def runPolls (data : List Nat) : Nat → List (Nat → Bool) →
    Option (Poll Nat) × Nat × List TxEv
  | i, [] => (none, i, [])
  | i, f :: fs =>
    let r := pollOnce data f i
    let rest := runPolls data r.2.1 fs
    (some (rest.1.getD r.1), rest.2.1, r.2.2 ++ rest.2.2)

/-- Observable events of `Uart::handle_interrupt`: waking a registered waker
(`self.waker.wake()`), and the write to the interrupt-clear register
(`uarticr.set(u32::MAX)`). -/
inductive IrqEv where
  | signal (w : Nat)
  | clearICR (v : Nat)
deriving DecidableEq, Repr

/-- `Uart::handle_interrupt` (src/pl011.rs:144-152).  State is the pair
(`irq_conut`, registered waker); `fr` is the flag-register value observed by
`is_set(FLAG::RXFE)` (RXFE is bit 4 in the `FLAG` bitfield of the same file).
`AtomicWaker::wake` takes the waker out of the slot and wakes it (a no-op when
the slot is empty).  Returns (new state, event trace). -/
def handle_interrupt (irq_conut : Nat) (waker : Option Nat) (fr : Nat) :
    (Nat × Option Nat) × List IrqEv :=
  let cnt := irq_conut + 1
  if fr &&& (1 <<< 4) ≠ 0 then
    match waker with
    | some w => ((cnt, none), [.signal w, .clearICR (2 ^ 32 - 1)])
    | none => ((cnt, none), [.clearICR (2 ^ 32 - 1)])
  else
    ((cnt, waker), [.clearICR (2 ^ 32 - 1)])

/-- `Uart::receive` (src/pl011.rs:135-142).  `fr` is the flag-register value,
`dr` the data-register value.  The source tests `uartfr.get() & (1 << 5) != 0`
(bit 5, TXFF in the `FLAG` bitfield of the same file) and on that branch warns and
returns the sentinel 0 without touching `uartdr`; otherwise it reads
`uartdr.get() as u8`.  Returns (byte returned, whether `uartdr` was read). -/
def receive (fr dr : Nat) : Nat × Bool :=
  if fr &&& (1 <<< 5) ≠ 0 then
    (0, false)
  else
    (dr % 2 ^ 8, true)

/-- The baud-divisor computation of `Uart::init` (src/pl011.rs:107-108),
with u32 wrapping made explicit:
`integer_part = clk_rate / (16 * baud_rate)`,
`fraction_part = ((clk_rate % (16 * baud_rate)) * 64 / (16 * baud_rate)) as u8`.
Rust division/remainder by zero panics, modelled by `none`.
Inputs are u32 values (callers establish `clk < 2 ^ 32`, `baud < 2 ^ 32`). -/
def baudDivisors (clk baud : Nat) : Option (Nat × Nat) :=
  let m := 16 * baud % 2 ^ 32
  if m = 0 then none
  else
    let integer_part := clk / m
    let fraction_part := clk % m * 64 % 2 ^ 32 / m % 2 ^ 8
    some (integer_part, fraction_part)

/-- The fractional divisor as the spec words it: `round_to_6_bits
((clock_rate mod (16 × baud_rate)) × 64 / (16 × baud_rate))` with real division
and rounding to the nearest integer (round half up: `round (a / b) =
(2 * a + b) / (2 * b)`).  Used only to compare the rounding required by the
spec against the truncation performed by the source. -/
def specRoundFraction (clk baud : Nat) : Nat :=
  (2 * (clk % (16 * baud) * 64) + 16 * baud) / (2 * (16 * baud))

/-- The registers written by `Uart::init`. -/
inductive Reg where
  | cr
  | ibrd
  | fbrd
  | ifls
  | imsc
  | lcrh
deriving DecidableEq, Repr

/-- The sequence of register writes performed by `Uart::init`
(src/pl011.rs:102-123), in program order:
`uartcr.set(0)`; `uartibrd.set(integer_part)`; `uartfbrd.set(fraction_part)`;
`uartifls.set(0x20)`; `uartimsc.set(1 << 4 | 1 << 5)`; `uartlcrh.set(0x70)`;
`uartcr.set(0x301)`.  `none` models the division-by-zero panic (the divisor
computation precedes every write except the initial `uartcr.set(0)`). -/
def initTrace (clk baud : Nat) : Option (List (Reg × Nat)) :=
  (baudDivisors clk baud).map fun p =>
    [(.cr, 0), (.ibrd, p.1), (.fbrd, p.2), (.ifls, 0x20), (.imsc, 0x30),
     (.lcrh, 0x70), (.cr, 0x301)]

/-- Whether a register is one of the baud-divisor / FIFO-level registers that
the hardware requires to be programmed only while the peripheral is disabled. -/
def isDivisorReg : Reg → Bool
  | .ibrd | .fbrd | .ifls => true
  | _ => false

/-- Checks a write trace against the discipline "divisor and FIFO-level
registers are only written while the control register holds 0 (peripheral
disabled)".  The first argument is the last value written to the control
register, `none` while unknown (a divisor write before any control-register
write fails the check). -/
def divisorSafe : Option Nat → List (Reg × Nat) → Bool
  | _, [] => true
  | _, (.cr, v) :: rest => divisorSafe (some v) rest
  | c, (r, _) :: rest => (!isDivisorReg r || c == some 0) && divisorSafe c rest

/-! Helper lemmas about the poll loop. -/

theorem drWrites_append (a b : List TxEv) :
    drWrites (a ++ b) = drWrites a ++ drWrites b :=
  List.filterMap_append a b _

theorem take_drop_glue (l : List Nat) (i i' iF : Nat) (h1 : i ≤ i') (h2 : i' ≤ iF) :
    (l.drop i).take (i' - i) ++ (l.drop i').take (iF - i') = (l.drop i).take (iF - i) := by
  have h3 : iF - i = (i' - i) + (iF - i') := by omega
  rw [h3, List.take_add]
  have h4 : List.drop (i' - i) (List.drop i l) = List.drop i' l := by
    rw [List.drop_drop]
    congr 1
    omega
  rw [h4]

theorem pollGo_cons_full (f : Nat → Bool) (b : Nat) (rest : List Nat) (i : Nat)
    (hf : f i = true) :
    pollGo f i (b :: rest) = (.Pending, i, [.readFR true, .regWaker]) := by
  simp [pollGo, hf]

theorem pollGo_cons_notfull (f : Nat → Bool) (b : Nat) (rest : List Nat) (i : Nat)
    (hf : f i = false) :
    pollGo f i (b :: rest) =
      ((pollGo f (i + 1) rest).1, (pollGo f (i + 1) rest).2.1,
        .readFR false :: .writeDR b :: (pollGo f (i + 1) rest).2.2) := by
  simp [pollGo, hf]

theorem pollGo_mono (f : Nat → Bool) (rem : List Nat) (i : Nat) :
    i ≤ (pollGo f i rem).2.1 := by
  induction rem generalizing i with
  | nil => exact Nat.le.refl
  | cons b rest ih =>
    rcases Or.symm (Bool.eq_false_or_eq_true (f i)) with hf | hf
    · rw [pollGo_cons_notfull f b rest i hf]
      have h := ih (i + 1)
      dsimp only
      omega
    · rw [pollGo_cons_full f b rest i hf]

theorem pollGo_le (f : Nat → Bool) (rem : List Nat) (i : Nat) :
    (pollGo f i rem).2.1 ≤ i + rem.length := by
  induction rem generalizing i with
  | nil => exact Nat.le_add_right i 0
  | cons b rest ih =>
    rcases Or.symm (Bool.eq_false_or_eq_true (f i)) with hf | hf
    · rw [pollGo_cons_notfull f b rest i hf]
      have h := ih (i + 1)
      dsimp only
      simp only [List.length_cons]
      omega
    · rw [pollGo_cons_full f b rest i hf]
      dsimp only
      omega

theorem pollGo_writes (f : Nat → Bool) (rem : List Nat) (i : Nat) :
    drWrites (pollGo f i rem).2.2 = rem.take ((pollGo f i rem).2.1 - i) := by
  induction rem generalizing i with
  | nil => simp [pollGo, drWrites]
  | cons b rest ih =>
    rcases Or.symm (Bool.eq_false_or_eq_true (f i)) with hf | hf
    · rw [pollGo_cons_notfull f b rest i hf]
      have h := ih (i + 1)
      have hm := pollGo_mono f rest (i + 1)
      dsimp only
      show b :: drWrites (pollGo f (i + 1) rest).2.2 =
        List.take ((pollGo f (i + 1) rest).2.1 - i) (b :: rest)
      rw [h]
      have h5 : (pollGo f (i + 1) rest).2.1 - i =
          ((pollGo f (i + 1) rest).2.1 - (i + 1)) + 1 := by omega
      rw [h5, List.take_succ_cons]
    · rw [pollGo_cons_full f b rest i hf]
      simp [drWrites]

theorem pollGo_ready_iff (f : Nat → Bool) (rem : List Nat) (i : Nat) :
    (pollGo f i rem).1 = .Ready (pollGo f i rem).2.1 ↔
      (pollGo f i rem).2.1 = i + rem.length := by
  induction rem generalizing i with
  | nil => simp [pollGo]
  | cons b rest ih =>
    rcases Or.symm (Bool.eq_false_or_eq_true (f i)) with hf | hf
    · rw [pollGo_cons_notfull f b rest i hf]
      have h := ih (i + 1)
      dsimp only
      rw [h, List.length_cons]
      omega
    · rw [pollGo_cons_full f b rest i hf]
      dsimp only
      simp only [List.length_cons]
      constructor
      · intro hcon
        exact Poll.noConfusion hcon
      · intro hcon
        exact absurd hcon (by omega)

theorem pollGo_shape (f : Nat → Bool) (rem : List Nat) (i : Nat) :
    (pollGo f i rem).1 = .Pending ∨ (pollGo f i rem).1 = .Ready (pollGo f i rem).2.1 := by
  induction rem generalizing i with
  | nil => exact Or.inr rfl
  | cons b rest ih =>
    rcases Or.symm (Bool.eq_false_or_eq_true (f i)) with hf | hf
    · rw [pollGo_cons_notfull f b rest i hf]
      exact ih (i + 1)
    · rw [pollGo_cons_full f b rest i hf]
      exact Or.inl rfl

theorem pollOnce_mono (data : List Nat) (f : Nat → Bool) (i : Nat) :
    i ≤ (pollOnce data f i).2.1 :=
  pollGo_mono f (data.drop i) i

theorem pollOnce_le (data : List Nat) (f : Nat → Bool) (i : Nat)
    (h : i ≤ data.length) : (pollOnce data f i).2.1 ≤ data.length := by
  have hb := pollGo_le f (data.drop i) i
  rw [List.length_drop] at hb
  unfold pollOnce
  omega

theorem pollOnce_writes (data : List Nat) (f : Nat → Bool) (i : Nat) :
    drWrites (pollOnce data f i).2.2 =
      (data.drop i).take ((pollOnce data f i).2.1 - i) :=
  pollGo_writes f (data.drop i) i

theorem pollOnce_ready_iff (data : List Nat) (f : Nat → Bool) (i : Nat)
    (h : i ≤ data.length) :
    (pollOnce data f i).1 = .Ready (pollOnce data f i).2.1 ↔
      (pollOnce data f i).2.1 = data.length := by
  have hb := pollGo_ready_iff f (data.drop i) i
  rw [List.length_drop] at hb
  have h2 : i + (data.length - i) = data.length := by omega
  rw [h2] at hb
  exact hb

theorem pollOnce_shape (data : List Nat) (f : Nat → Bool) (i : Nat) :
    (pollOnce data f i).1 = .Pending ∨
      (pollOnce data f i).1 = .Ready (pollOnce data f i).2.1 :=
  pollGo_shape f (data.drop i) i

theorem runPolls_none (data : List Nat) (i : Nat) (polls : List (Nat → Bool))
    (h : (runPolls data i polls).1 = none) :
    runPolls data i polls = (none, i, []) := by
  cases polls with
  | nil => rfl
  | cons f fs => simp [runPolls] at h

theorem runPolls_spec (data : List Nat) (polls : List (Nat → Bool)) (i : Nat)
    (h : i ≤ data.length) :
    i ≤ (runPolls data i polls).2.1
    ∧ (runPolls data i polls).2.1 ≤ data.length
    ∧ drWrites (runPolls data i polls).2.2 =
        (data.drop i).take ((runPolls data i polls).2.1 - i)
    ∧ ∀ n, (runPolls data i polls).1 = some (.Ready n) →
        n = (runPolls data i polls).2.1 ∧ (runPolls data i polls).2.1 = data.length := by
  induction polls generalizing i with
  | nil =>
    refine ⟨le_refl i, h, by simp [runPolls, drWrites], ?_⟩
    intro n hn
    simp [runPolls] at hn
  | cons f fs ih =>
    have hm1 := pollOnce_mono data f i
    have hl1 := pollOnce_le data f i h
    have hw1 := pollOnce_writes data f i
    have hsh := pollOnce_shape data f i
    have hri := pollOnce_ready_iff data f i h
    obtain ⟨ihm, ihl, ihw, ihr⟩ := ih (pollOnce data f i).2.1 hl1
    have hcur : (runPolls data i (f :: fs)).2.1 =
        (runPolls data (pollOnce data f i).2.1 fs).2.1 := by
      simp only [runPolls]
    have hevs : (runPolls data i (f :: fs)).2.2 =
        (pollOnce data f i).2.2 ++ (runPolls data (pollOnce data f i).2.1 fs).2.2 := by
      simp only [runPolls]
    have hres : (runPolls data i (f :: fs)).1 =
        some ((runPolls data (pollOnce data f i).2.1 fs).1.getD (pollOnce data f i).1) := by
      simp only [runPolls]
    refine ⟨by omega, by omega, ?_, ?_⟩
    · rw [hevs, hcur, drWrites_append, hw1, ihw]
      exact take_drop_glue data i (pollOnce data f i).2.1
        (runPolls data (pollOnce data f i).2.1 fs).2.1 hm1 ihm
    · intro n hn
      rw [hres] at hn
      rw [Option.some_inj] at hn
      rw [hcur]
      cases hrest : (runPolls data (pollOnce data f i).2.1 fs).1 with
      | none =>
        rw [hrest, Option.getD_none] at hn
        have hnil := runPolls_none data (pollOnce data f i).2.1 fs hrest
        rw [hnil]
        rcases hsh with hp | hr
        · rw [hp] at hn
          exact absurd hn (by simp)
        · rw [hr] at hn
          have hn2 : n = (pollOnce data f i).2.1 := by
            cases hn
            rfl
          have := hri.mp hr
          exact ⟨hn2, this⟩
      | some p =>
        rw [hrest, Option.getD_some] at hn
        rw [hn] at hrest
        exact ihr n hrest

/-! The claim theorems. -/

/-- C1: for every byte sequence, when the asynchronous transmit operation
created by `Uart::write` (cursor 0) is polled to completion, it returns
`Poll::Ready` with a count equal to the buffer length, and the data-register
writes over all polls are exactly the bytes of the buffer in order, with
nothing reordered, duplicated or skipped. -/
theorem write_drains_buffer_in_order (data : List Nat) (polls : List (Nat → Bool))
    (n : Nat) (h : (runPolls data 0 polls).1 = some (.Ready n)) :
    n = data.length ∧ drWrites (runPolls data 0 polls).2.2 = data := by
  obtain ⟨hm, hl, hw, hr⟩ := runPolls_spec data polls 0 (Nat.zero_le _)
  obtain ⟨hn, hlen⟩ := hr n h
  refine ⟨hn.trans hlen, ?_⟩
  rw [hw, hlen]
  simp

/-- Witness for C1: transmitting [7, 8] with one poll that always observes
TXFF clear completes with count 2 and writes exactly [7, 8]. -/
theorem write_drains_buffer_in_order_witness :
    2 = List.length [7, 8]
    ∧ drWrites (runPolls [7, 8] 0 [fun _ => false]).2.2 = [7, 8] :=
  write_drains_buffer_in_order [7, 8] [fun _ => false] 2 rfl

/-- C2: for every buffer and cursor strictly below the buffer length, a poll
that observes the transmit-FIFO-full flag set registers the waker and returns
`Poll::Pending` without writing to the data register. -/
theorem full_fifo_registers_waker_and_pends (data : List Nat) (f : Nat → Bool)
    (i : Nat) (hi : i < data.length) (hf : f i = true) :
    pollOnce data f i = (.Pending, i, [.readFR true, .regWaker])
    ∧ drWrites (pollOnce data f i).2.2 = [] := by
  have hd : data.drop i = data[i] :: data.drop (i + 1) := List.drop_eq_getElem_cons hi
  have h1 : pollOnce data f i = (.Pending, i, [.readFR true, .regWaker]) := by
    unfold pollOnce
    rw [hd]
    exact pollGo_cons_full f data[i] (data.drop (i + 1)) i hf
  refine ⟨h1, ?_⟩
  rw [h1]
  rfl

/-- Witness for C2: polling over [5] at cursor 0 with TXFF observed set pends,
registers the waker and writes nothing. -/
theorem full_fifo_registers_waker_and_pends_witness :
    pollOnce [5] (fun _ => true) 0 = (.Pending, 0, [.readFR true, .regWaker])
    ∧ drWrites (pollOnce [5] (fun _ => true) 0).2.2 = [] :=
  full_fifo_registers_waker_and_pends [5] (fun _ => true) 0 (by decide) rfl

/-- C3: every invocation of `handle_interrupt` increments the interrupt counter
by exactly one; a registered waker is signalled iff the RXFE flag (bit 4) is
observed set; every signal precedes the unconditional write to the
interrupt-clear register, which is the last event; and the handler completes
normally (just the clear write) when no waker is registered. -/
theorem handle_interrupt_counts_signals_then_clears (irq_conut : Nat)
    (waker : Option Nat) (fr : Nat) :
    (handle_interrupt irq_conut waker fr).1.1 = irq_conut + 1
    ∧ (∀ x, waker = some x →
        (IrqEv.signal x ∈ (handle_interrupt irq_conut waker fr).2 ↔
          fr &&& (1 <<< 4) ≠ 0))
    ∧ (∃ pre, (handle_interrupt irq_conut waker fr).2 = pre ++ [.clearICR (2 ^ 32 - 1)]
        ∧ ∀ e ∈ pre, ∃ x, e = IrqEv.signal x)
    ∧ (waker = none →
        (handle_interrupt irq_conut waker fr).2 = [.clearICR (2 ^ 32 - 1)]) := by
  by_cases hfr : fr &&& 16 = 0
  · refine ⟨?_, ?_, ?_, ?_⟩
    · simp [handle_interrupt, hfr]
    · intro x hx
      simp [handle_interrupt, hfr]
    · exact ⟨[], by simp [handle_interrupt, hfr], by simp⟩
    · intro _
      simp [handle_interrupt, hfr]
  · cases waker with
    | some w =>
      refine ⟨?_, ?_, ?_, ?_⟩
      · simp [handle_interrupt, hfr]
      · intro x hx
        injection hx with hx
        subst hx
        simp [handle_interrupt, hfr]
      · refine ⟨[.signal w], ?_, ?_⟩
        · simp [handle_interrupt, hfr]
        · intro e he
          simp at he
          exact ⟨w, he⟩
      · intro hno
        exact Option.noConfusion hno
    | none =>
      refine ⟨?_, ?_, ?_, ?_⟩
      · simp [handle_interrupt, hfr]
      · intro x hx
        exact Option.noConfusion hx
      · exact ⟨[], by simp [handle_interrupt, hfr], by simp⟩
      · intro _
        simp [handle_interrupt, hfr]

/-- Witness for C3: with counter 0, waker 7 registered and flag value 0x10
(RXFE set), the counter becomes 1 and the waker is signalled. -/
theorem handle_interrupt_counts_signals_then_clears_witness :
    (handle_interrupt 0 (some 7) 16).1.1 = 0 + 1
    ∧ (IrqEv.signal 7 ∈ (handle_interrupt 0 (some 7) 16).2 ↔
        (16 : Nat) &&& (1 <<< 4) ≠ 0) :=
  ⟨(handle_interrupt_counts_signals_then_clears 0 (some 7) 16).1,
    (handle_interrupt_counts_signals_then_clears 0 (some 7) 16).2.1 7 rfl⟩

/-- C4 (code-bug evidence): at flag value 0x10 — RXFE (bit 4) set, so the
receive FIFO is empty — `receive` nevertheless reads the data register and
returns its value (here 171) instead of the sentinel 0, because the source
tests bit 5 (TXFF) instead of bit 4 (RXFE); dually, at flag value 0x20 (TXFF
set, RXFE clear, so data is available) it returns the sentinel 0 without
reading the data register. -/
theorem receive_tests_txff_not_rxfe :
    (16 : Nat) &&& (1 <<< 4) ≠ 0
    ∧ receive 16 171 = (171, true)
    ∧ (32 : Nat) &&& (1 <<< 4) = 0
    ∧ receive 32 171 = (0, false) := by
  decide

/-- C5 counterexample: at clk_rate = 47, baud_rate = 3 the source programs the
fractional divisor with the truncated value 62 (47 mod 48 × 64 / 48 =
62.66… rounded down), while the rounding formula stated by the claim gives 63. -/
theorem fraction_rounding_counterexample :
    baudDivisors 47 3 = some (0, 62)
    ∧ specRoundFraction 47 3 = 63
    ∧ (62 : Nat) ≠ 63 := by
  decide

/-- C5 (amended): `init` programs the integer divisor with
clk / (16 × baud) and the fractional divisor with the TRUNCATED value
(clk mod (16 × baud)) × 64 / (16 × baud) — rounded down, not to nearest;
at clk = 100000000, baud = 115200 the parts are 54 and 16, where truncation
and rounding happen to coincide. -/
theorem divisors_truncated (clk baud : Nat) (hclk : clk < 2 ^ 32) (hb : 0 < baud)
    (hm : 16 * baud < 2 ^ 32) (hprod : clk % (16 * baud) * 64 < 2 ^ 32) :
    baudDivisors clk baud =
      some (clk / (16 * baud), clk % (16 * baud) * 64 / (16 * baud))
    ∧ baudDivisors 100000000 115200 = some (54, 16)
    ∧ specRoundFraction 100000000 115200 = 16 := by
  refine ⟨?_, by decide, by decide⟩
  have hmm : 16 * baud % 2 ^ 32 = 16 * baud := Nat.mod_eq_of_lt hm
  have hpos : 0 < 16 * baud := by omega
  have hrem : clk % (16 * baud) < 16 * baud := Nat.mod_lt _ hpos
  have h2 : clk % (16 * baud) * 64 < 16 * baud * 64 :=
    mul_lt_mul_of_pos_right hrem (by norm_num)
  have h3 : 16 * baud * 64 = 64 * (16 * baud) := Nat.mul_comm _ _
  have hdivlt : clk % (16 * baud) * 64 / (16 * baud) < 64 := by
    rw [Nat.div_lt_iff_lt_mul hpos]
    linarith
  simp only [baudDivisors, hmm]
  rw [if_neg (by omega : ¬16 * baud = 0)]
  rw [Nat.mod_eq_of_lt hprod]
  rw [Nat.mod_eq_of_lt (Nat.lt_trans hdivlt (by norm_num))]

/-- Witness for C5 (amended) at clk = 100000000, baud = 115200. -/
theorem divisors_truncated_witness :
    baudDivisors 100000000 115200 =
      some (100000000 / (16 * 115200), 100000000 % (16 * 115200) * 64 / (16 * 115200))
    ∧ baudDivisors 100000000 115200 = some (54, 16)
    ∧ specRoundFraction 100000000 115200 = 16 :=
  divisors_truncated 100000000 115200 (by decide) (by decide) (by decide) (by decide)

/-- C6: in every completed execution of `init`, the disabling write of 0 to the
control register comes first, before any write to the integer divisor,
fractional divisor or FIFO-level registers; the enabling write (0x301, transmit
and receive) is the last write; and no divisor or FIFO-level register is
written while the peripheral is enabled. -/
theorem init_divisors_while_disabled (clk baud : Nat) (tr : List (Reg × Nat))
    (h : initTrace clk baud = some tr) :
    tr.head? = some (.cr, 0)
    ∧ tr.getLast? = some (.cr, 0x301)
    ∧ divisorSafe none tr = true := by
  unfold initTrace at h
  cases hb : baudDivisors clk baud with
  | none =>
    rw [hb] at h
    exact Option.noConfusion h
  | some p =>
    rw [hb] at h
    injection h with h2
    subst h2
    exact ⟨rfl, rfl, rfl⟩

/-- Witness for C6 at clk = 100000000, baud = 115200. -/
theorem init_divisors_while_disabled_witness :
    ([(Reg.cr, 0), (Reg.ibrd, 54), (Reg.fbrd, 16), (Reg.ifls, 0x20),
      (Reg.imsc, 0x30), (Reg.lcrh, 0x70), (Reg.cr, 0x301)] :
        List (Reg × Nat)).head? = some (.cr, 0)
    ∧ ([(Reg.cr, 0), (Reg.ibrd, 54), (Reg.fbrd, 16), (Reg.ifls, 0x20),
        (Reg.imsc, 0x30), (Reg.lcrh, 0x70), (Reg.cr, 0x301)] :
          List (Reg × Nat)).getLast? = some (.cr, 0x301)
    ∧ divisorSafe none
        [(Reg.cr, 0), (Reg.ibrd, 54), (Reg.fbrd, 16), (Reg.ifls, 0x20),
         (Reg.imsc, 0x30), (Reg.lcrh, 0x70), (Reg.cr, 0x301)] = true :=
  init_divisors_while_disabled 100000000 115200
    [(Reg.cr, 0), (Reg.ibrd, 54), (Reg.fbrd, 16), (Reg.ifls, 0x20),
     (Reg.imsc, 0x30), (Reg.lcrh, 0x70), (Reg.cr, 0x301)] (by decide)

/-- C7: the cursor stays between 0 and the buffer length across a poll, is
non-decreasing, and the poll returns `Poll::Ready` exactly when the cursor
equals the buffer length. -/
theorem cursor_invariant_bounds_ready (data : List Nat) (f : Nat → Bool) (i : Nat)
    (h : i ≤ data.length) :
    i ≤ (pollOnce data f i).2.1
    ∧ (pollOnce data f i).2.1 ≤ data.length
    ∧ ((∃ n, (pollOnce data f i).1 = .Ready n) ↔
        (pollOnce data f i).2.1 = data.length) := by
  refine ⟨pollOnce_mono data f i, pollOnce_le data f i h, ?_, ?_⟩
  · rintro ⟨n, hn⟩
    rcases pollOnce_shape data f i with hp | hr
    · rw [hp] at hn
      exact Poll.noConfusion hn
    · exact (pollOnce_ready_iff data f i h).mp hr
  · intro hlen
    exact ⟨(pollOnce data f i).2.1, (pollOnce_ready_iff data f i h).mpr hlen⟩

/-- Witness for C7 on buffer [3] from cursor 0 with TXFF always clear. -/
theorem cursor_invariant_bounds_ready_witness :
    0 ≤ (pollOnce [3] (fun _ => false) 0).2.1
    ∧ (pollOnce [3] (fun _ => false) 0).2.1 ≤ List.length [3]
    ∧ ((∃ n, (pollOnce [3] (fun _ => false) 0).1 = .Ready n) ↔
        (pollOnce [3] (fun _ => false) 0).2.1 = List.length [3]) :=
  cursor_invariant_bounds_ready [3] (fun _ => false) 0 (by decide)

/-- C8: polling the transmit operation over a zero-length buffer returns
`Poll::Ready 0` on the first poll with no register reads, no register writes
and no waker registration. -/
theorem zero_length_write_ready_no_access (f : Nat → Bool) :
    pollOnce [] f 0 = (.Ready 0, 0, []) :=
  rfl

/-- C10: polling again once the cursor equals the buffer length returns
`Poll::Ready` with the same count (the buffer length) and performs no register
access and no waker registration. -/
theorem poll_after_complete_ready_no_access (data : List Nat) (f : Nat → Bool) :
    pollOnce data f data.length = (.Ready data.length, data.length, []) := by
  unfold pollOnce
  rw [List.drop_length]
  rfl

/-- C9: whenever `16 * baud_rate` and the product `(clk mod (16 * baud)) * 64`
fit in 32 bits, the fractional divisor computed by `init` is strictly below 64,
so it fits the 6-bit fractional divisor field. -/
theorem fraction_fits_six_bits (clk baud : Nat) (hclk : clk < 2 ^ 32)
    (hm : 16 * baud < 2 ^ 32) (hprod : clk % (16 * baud) * 64 < 2 ^ 32) :
    ∀ i f, baudDivisors clk baud = some (i, f) → f < 64 := by
  intro i fr h
  by_cases hz : 16 * baud = 0
  · simp [baudDivisors, hz] at h
  · have hmm : 16 * baud % 2 ^ 32 = 16 * baud := Nat.mod_eq_of_lt hm
    simp only [baudDivisors, hmm] at h
    rw [if_neg hz] at h
    injection h with h2
    have hfr : fr = clk % (16 * baud) * 64 % 2 ^ 32 / (16 * baud) % 2 ^ 8 :=
      (congrArg Prod.snd h2).symm
    rw [Nat.mod_eq_of_lt hprod] at hfr
    have hpos : 0 < 16 * baud := by omega
    have hrem : clk % (16 * baud) < 16 * baud := Nat.mod_lt _ hpos
    have h2' : clk % (16 * baud) * 64 < 16 * baud * 64 :=
      mul_lt_mul_of_pos_right hrem (by norm_num)
    have h3 : 16 * baud * 64 = 64 * (16 * baud) := Nat.mul_comm _ _
    have hdivlt : clk % (16 * baud) * 64 / (16 * baud) < 64 := by
      rw [Nat.div_lt_iff_lt_mul hpos]
      linarith
    calc fr ≤ clk % (16 * baud) * 64 / (16 * baud) := by
              rw [hfr]
              exact Nat.mod_le _ _
      _ < 64 := hdivlt

/-- Witness for C9 at clk = 100000000, baud = 115200: the computed fraction 16
is below 64. -/
theorem fraction_fits_six_bits_witness :
    baudDivisors 100000000 115200 = some (54, 16) ∧ (16 : Nat) < 64 :=
  ⟨by decide,
    fraction_fits_six_bits 100000000 115200 (by decide) (by decide) (by decide)
      54 16 (by decide)⟩

end Pl011
